import Mathlib

/-!
Verification of the document-segmentation core of the api-doc-mcp repository
(src/scraper.ts, src/embeddings.ts): the HTML section extractor
(buildSectionTree), the section-tree flattener (sectionsToChunks with
processSection), and the chunk metadata summarizer (generateSummary,
extractSections).

Text is modelled as a list of characters; JavaScript strings map to
Lean character lists, with string length measured in characters.
The random uuidv4() generator is modelled as an explicit supply
function from the number of identifiers drawn so far to an identifier.
-/

namespace ApiDocMcp

/-- A JavaScript string, modelled as a list of characters. -/
abbrev Str := List Char

/-- Shorthand turning a Lean string literal into the character-list model. -/
def str (s : String) : Str := s.toList

/-- Chunking configuration from src/scraper.ts. -/
def MIN_CHUNK_TOKENS : Nat := 100

/-- Target chunk size from src/scraper.ts. -/
def TARGET_CHUNK_TOKENS : Nat := 600

/-- Maximum chunk size from src/scraper.ts. -/
def MAX_CHUNK_TOKENS : Nat := 1000

/-- estimateTokens from src/embeddings.ts: Math.ceil(text.length / 4). -/
def estimateTokens (text : Str) : Nat := (text.length + 3) / 4

/-- ASCII whitespace, the fragment of JavaScript String.prototype.trim
relevant to this development. -/
def isWs (c : Char) : Bool := c = ' ' || c = '\n' || c = '\t' || c = '\r'

/-- JavaScript String.prototype.trim on the character-list model. -/
def trimStr (s : Str) : Str :=
  ((s.dropWhile isWs).reverse.dropWhile isWs).reverse

/-- The two-character blank-line separator used by the chunker. -/
def sepNl : Str := ['\n', '\n']

/-- Splitting on the regex \n\n+ : one-character-at-a-time scanner.
acc holds the characters of the paragraph built so far (reversed);
pending counts newlines seen but not yet classified — a run of two or
more is a paragraph separator, a single one belongs to the paragraph. -/
def splitParasAux : Str → Str → Nat → List Str
  | [], acc, pending =>
      if pending ≥ 2 then [acc.reverse, []]
      else [(List.replicate pending '\n' ++ acc).reverse]
  | c :: rest, acc, pending =>
      if c = '\n' then splitParasAux rest acc (pending + 1)
      else if pending ≥ 2 then acc.reverse :: splitParasAux rest [c] 0
      else splitParasAux rest (c :: (List.replicate pending '\n' ++ acc)) 0

/-- content.split(/\n\n+/) from src/scraper.ts line 146. -/
def splitParas (s : Str) : List Str := splitParasAux s [] 0

/-- Array.prototype.join with a blank-line separator. -/
def joinParas (l : List Str) : Str := List.intercalate sepNl l

/-- JavaScript String.prototype.includes on the character-list model. -/
def containsSub : Str → Str → Bool
  | [], sub => sub.isEmpty
  | s@(_ :: rest), sub => sub.isPrefixOf s || containsSub rest sub

/-- JavaScript String.prototype.lastIndexOf for a single character,
returning none instead of -1. -/
def lastIdxOf : Str → Char → Option Nat
  | [], _ => none
  | c :: rest, t =>
      match lastIdxOf rest t with
      | some j => some (j + 1)
      | none => if c = t then some 0 else none

/-- JavaScript String.prototype.toLowerCase on the character-list model. -/
def toLowerStr (s : Str) : Str := s.map Char.toLower

/-- DocChunk from the shared type definitions, without the optional
embedding vector (attached only after the core pipeline runs). -/
structure Chunk where
  id : Str
  doc_id : Str
  doc_title : Str
  doc_url : Str
  section_path : List Str
  heading : Str
  content : Str
  token_count : Nat
  chunk_index : Nat
deriving Repr, DecidableEq

/-- The document identity threaded through sectionsToChunks. -/
structure DocInfo where
  doc_id : Str
  doc_title : Str
  doc_url : Str
deriving Repr, DecidableEq

/-- ParsedSection from the shared type definitions. -/
structure ParsedSection where
  level : Nat
  heading : Str
  content : Str
  children : List ParsedSection
deriving Repr

/-- A block element fed to the extractor: a header h1..h6 or a content
element (paragraph, list, pre, blockquote, table), text pre-trimmed. -/
inductive BlockElement where
  | header (level : Nat) (text : Str)
  | contentEl (text : Str)
deriving Repr, DecidableEq

/-- The synthetic Introduction section created for content buffered while
no section is open (src/scraper.ts lines 110-115). -/
def introSection (content : Str) : ParsedSection :=
  { level := 0, heading := str "Introduction", content := content,
    children := [] }

/-- The save block run when the while loop of buildSectionTree exits
(src/scraper.ts lines 105-116): set the open section's content from the
buffer, or synthesize an Introduction section, and return the section
list in document order. cur is the most recently pushed section, doneRev
the earlier pushed sections (reversed), bufRev the buffer (reversed). -/
def finishSections (cur : Option ParsedSection)
    (doneRev : List ParsedSection) (bufRev : List Str) : List ParsedSection :=
  match cur with
  | some c =>
      let c1 := if bufRev ≠ [] then
          { c with content := joinParas bufRev.reverse } else c
      (c1 :: doneRev).reverse
  | none =>
      if bufRev ≠ [] then
        introSection (joinParas bufRev.reverse) :: doneRev.reverse
      else doneRev.reverse

/-- The save step at the top of the loop body for a header element
(src/scraper.ts lines 73-77): flush the buffer into the open section. -/
def saveOpenSection (cur : Option ParsedSection) (bufRev : List Str) :
    Option ParsedSection × List Str :=
  match cur with
  | some c =>
      if bufRev ≠ [] then
        (some { c with content := joinParas bufRev.reverse }, [])
      else (some c, bufRev)
  | none => (none, bufRev)

/-- buildSectionTree from src/scraper.ts lines 63-119. The JavaScript
function walks an index through the shared elements array; here the
remaining elements are passed in and returned. The fuel argument, spent
once per recursive step, makes the recursion structural; the wrapper
passes more fuel than the element count can consume. cur, doneRev and
bufRev model the loop locals currentSection, result and contentBuffer,
as in finishSections. -/
def buildSectionTree : Nat → List BlockElement → Nat →
    Option ParsedSection → List ParsedSection → List Str →
    List ParsedSection × List BlockElement
  | 0, els, _, cur, doneRev, bufRev =>
      (finishSections cur doneRev bufRev, els)
  | _ + 1, [], _, cur, doneRev, bufRev =>
      (finishSections cur doneRev bufRev, [])
  | fuel + 1, BlockElement.contentEl t :: rest, parentLevel, cur, doneRev,
      bufRev =>
      buildSectionTree fuel rest parentLevel cur doneRev (t :: bufRev)
  | fuel + 1, BlockElement.header lvl t :: rest, parentLevel, cur, doneRev,
      bufRev =>
      let p := saveOpenSection cur bufRev
      if lvl ≤ parentLevel then
        (finishSections p.1 doneRev p.2, BlockElement.header lvl t :: rest)
      else
        let child := buildSectionTree fuel rest lvl none [] []
        let curNew : ParsedSection :=
          { level := lvl, heading := t, content := [],
            children := child.1 }
        let doneRev2 :=
          match p.1 with
          | some c => c :: doneRev
          | none => doneRev
        buildSectionTree fuel child.2 parentLevel (some curNew) doneRev2 p.2

/-- parseHtmlToSections from src/scraper.ts line 121, from the block
element list onward: buildSectionTree(0, 0).sections. Two fuel units per
element always suffice: every step consumes an element, except the
continuation after a child call, which follows a consumed header. -/
def parseBlocks (els : List BlockElement) : List ParsedSection :=
  (buildSectionTree (2 * els.length + 2) els 0 none [] []).1

mutual

/-- An upper bound on the recursion steps needed to process a section. -/
def secFuel : ParsedSection → Nat
  | ⟨_, _, _, ch⟩ => secsFuel ch + 1

/-- An upper bound on the recursion steps needed to process a forest. -/
def secsFuel : List ParsedSection → Nat
  | [] => 1
  | s :: rest => secFuel s + secsFuel rest + 1

end

/-- The mutable state closed over by processSection in src/scraper.ts:
the chunks emitted so far (most recent first) and the chunkIndex counter. -/
structure ChunkState where
  rev : List Chunk
  idx : Nat
deriving Repr, DecidableEq

/-- The initial state of sectionsToChunks: no chunks, chunkIndex 0. -/
def initialState : ChunkState := ⟨[], 0⟩

/-- chunks.push with id: uuidv4(), chunk_index: chunkIndex++ from
src/scraper.ts; the uuid supply u is indexed by the number of
identifiers drawn so far, which always equals the chunkIndex counter. -/
def pushChunk (u : Nat → Str) (d : DocInfo) (path : List Str)
    (heading content : Str) (tokens : Nat) (st : ChunkState) : ChunkState :=
  { rev := { id := u st.idx, doc_id := d.doc_id, doc_title := d.doc_title,
             doc_url := d.doc_url, section_path := path, heading := heading,
             content := content, token_count := tokens,
             chunk_index := st.idx } :: st.rev,
    idx := st.idx + 1 }

/-- lastChunk.content += two newlines + extra; lastChunk.token_count += tokens
(src/scraper.ts lines 187-192 and 206-210). -/
def mergeLast (extra : Str) (tokens : Nat) (st : ChunkState) : ChunkState :=
  match st.rev with
  | [] => st
  | c :: rest =>
      { st with rev := { c with content := c.content ++ sepNl ++ extra,
                                token_count := c.token_count + tokens } :: rest }

/-- The heading expression of the split and direct emission branches:
section.heading, else the last breadcrumb element, else the literal
Content (src/scraper.ts lines 161, 182, 201). -/
def headingFallback (h : Str) (path : List Str) : Str :=
  if h ≠ [] then h
  else
    match path.getLast? with
    | some x => if x ≠ [] then x else str "Content"
    | none => str "Content"

/-- The paragraph-accumulation loop of the oversized-content branch
(src/scraper.ts lines 150-172), returning the state together with the
remaining buffer and its token count. -/
def splitLoop (u : Nat → Str) (d : DocInfo) (secHeading : Str)
    (path : List Str) :
    List Str → Str → Nat → ChunkState → ChunkState × Str × Nat
  | [], buffer, bufTokens, st => (st, buffer, bufTokens)
  | para :: rest, buffer, bufTokens, st =>
      let paraTokens := estimateTokens para
      if bufTokens + paraTokens > TARGET_CHUNK_TOKENS ∧ buffer ≠ [] then
        splitLoop u d secHeading path rest para paraTokens
          (pushChunk u d path (headingFallback secHeading path)
            (trimStr buffer) bufTokens st)
      else
        splitLoop u d secHeading path rest
          (if buffer ≠ [] then buffer ++ sepNl ++ para else para)
          (bufTokens + paraTokens) st

/-- The oversized-content branch of processSection (src/scraper.ts lines
145-192): split into paragraphs, run the accumulation loop, then emit,
merge, or drop the remaining buffer. -/
def splitEmit (u : Nat → Str) (d : DocInfo) (secHeading : Str)
    (path : List Str) (content : Str) (st : ChunkState) : ChunkState :=
  match splitLoop u d secHeading path (splitParas content) [] 0 st with
  | (st1, buffer, bufTokens) =>
      if buffer ≠ [] ∧ bufTokens ≥ MIN_CHUNK_TOKENS then
        pushChunk u d path (headingFallback secHeading path)
          (trimStr buffer) bufTokens st1
      else if buffer ≠ [] ∧ st1.rev ≠ [] then
        mergeLast (trimStr buffer) bufTokens st1
      else st1

mutual

/-- processSection from src/scraper.ts lines 137-231. The fuel argument,
spent once per recursive step, makes the nested tree recursion
structural; every statement below holds for every fuel, and the
sectionsToChunks wrapper passes more fuel than the tree can consume. -/
def processSection (u : Nat → Str) (d : DocInfo) :
    Nat → ParsedSection → List Str → ChunkState → ChunkState
  | 0, _, _, st => st
  | fuel + 1, s, path, st =>
      let currentPath := if s.heading ≠ [] then path ++ [s.heading] else path
      let content := trimStr s.content
      let st1 :=
        if content ≠ [] then
          let tokens := estimateTokens content
          if tokens > MAX_CHUNK_TOKENS then
            splitEmit u d s.heading currentPath content st
          else if tokens ≥ MIN_CHUNK_TOKENS then
            pushChunk u d currentPath (headingFallback s.heading currentPath)
              content tokens st
          else if st.rev ≠ [] then
            mergeLast content tokens st
          else
            pushChunk u d currentPath
              (if s.heading ≠ [] then s.heading else str "Introduction")
              content tokens st
        else st
      processSections u d fuel s.children currentPath st1

/-- The iteration of processSection over a list of sections, both for the
top-level loop of sectionsToChunks and for the children recursion. -/
def processSections (u : Nat → Str) (d : DocInfo) :
    Nat → List ParsedSection → List Str → ChunkState → ChunkState
  | 0, _, _, st => st
  | _ + 1, [], _, st => st
  | fuel + 1, s :: rest, path, st =>
      processSections u d fuel rest path (processSection u d fuel s path st)

end

/-- sectionsToChunks from src/scraper.ts lines 127-238, with the uuidv4
supply made explicit. The fuel secsFuel sections exceeds what the
recursion can spend, since every recursive step descends strictly into
the term. -/
def sectionsToChunks (u : Nat → Str) (sections : List ParsedSection)
    (docId docTitle docUrl : Str) (parentPath : List Str := []) : List Chunk :=
  (processSections u ⟨docId, docTitle, docUrl⟩ (secsFuel sections) sections
    parentPath initialState).rev.reverse

/-- generateSummary from src/scraper.ts lines 243-256. -/
def generateSummary (chunks : List Chunk) : Str :=
  match chunks with
  | [] => []
  | c0 :: _ =>
      let introChunk :=
        ((chunks.find? fun c =>
            containsSub (toLowerStr c.heading) (str "intro")).getD c0)
      let summary := introChunk.content.take 300
      match lastIdxOf summary '.' with
      | some i => if i > 100 then summary.take (i + 1) else summary ++ str "..."
      | none => summary ++ str "..."

/-- First-seen-order deduplication, the behaviour of insertion into a
JavaScript Set followed by Array.from. -/
def firstSeen : List Str → List Str → List Str
  | [], acc => acc.reverse
  | x :: xs, acc =>
      if x ∈ acc then firstSeen xs acc else firstSeen xs (x :: acc)

/-- extractSections from src/scraper.ts lines 261-269. -/
def extractSections (chunks : List Chunk) : List Str :=
  firstSeen (chunks.filterMap fun c => c.section_path.head?) []

/-- The four chunk-emitting branches of processSection. -/
inductive Branch where
  | direct
  | smallFirst
  | splitFlush
  | splitRemainder
deriving Repr, DecidableEq

/-- A chunk with bookkeeping of its emission: the branch that pushed it,
its token count and content at emission time, and the heading of the
section being processed when it was pushed. The Chunk fields evolve
exactly as in processSection; the bookkeeping fields are never read. -/
structure GChunk extends Chunk where
  branch : Branch
  emitTokens : Nat
  emitContent : Str
  secHeading : Str
deriving Repr, DecidableEq

/-- ChunkState with bookkeeping. -/
structure GState where
  rev : List GChunk
  idx : Nat
deriving Repr, DecidableEq

/-- Forgetting the bookkeeping of a GState. -/
def GState.project (st : GState) : ChunkState :=
  ⟨st.rev.map GChunk.toChunk, st.idx⟩

/-- The initial GState. -/
def gInitialState : GState := ⟨[], 0⟩

/-- pushChunk with bookkeeping. -/
def gPushChunk (u : Nat → Str) (d : DocInfo) (path : List Str)
    (heading content : Str) (tokens : Nat) (b : Branch) (secHeading : Str)
    (st : GState) : GState :=
  { rev := { id := u st.idx, doc_id := d.doc_id, doc_title := d.doc_title,
             doc_url := d.doc_url, section_path := path, heading := heading,
             content := content, token_count := tokens,
             chunk_index := st.idx, branch := b, emitTokens := tokens,
             emitContent := content, secHeading := secHeading } :: st.rev,
    idx := st.idx + 1 }

/-- mergeLast with bookkeeping (the bookkeeping fields are unchanged). -/
def gMergeLast (extra : Str) (tokens : Nat) (st : GState) : GState :=
  match st.rev with
  | [] => st
  | c :: rest =>
      { st with rev := { c with content := c.content ++ sepNl ++ extra,
                                token_count := c.token_count + tokens } :: rest }

/-- splitLoop with bookkeeping. -/
def gSplitLoop (u : Nat → Str) (d : DocInfo) (secHeading : Str)
    (path : List Str) :
    List Str → Str → Nat → GState → GState × Str × Nat
  | [], buffer, bufTokens, st => (st, buffer, bufTokens)
  | para :: rest, buffer, bufTokens, st =>
      let paraTokens := estimateTokens para
      if bufTokens + paraTokens > TARGET_CHUNK_TOKENS ∧ buffer ≠ [] then
        gSplitLoop u d secHeading path rest para paraTokens
          (gPushChunk u d path (headingFallback secHeading path)
            (trimStr buffer) bufTokens Branch.splitFlush secHeading st)
      else
        gSplitLoop u d secHeading path rest
          (if buffer ≠ [] then buffer ++ sepNl ++ para else para)
          (bufTokens + paraTokens) st

/-- splitEmit with bookkeeping. -/
def gSplitEmit (u : Nat → Str) (d : DocInfo) (secHeading : Str)
    (path : List Str) (content : Str) (st : GState) : GState :=
  match gSplitLoop u d secHeading path (splitParas content) [] 0 st with
  | (st1, buffer, bufTokens) =>
      if buffer ≠ [] ∧ bufTokens ≥ MIN_CHUNK_TOKENS then
        gPushChunk u d path (headingFallback secHeading path)
          (trimStr buffer) bufTokens Branch.splitRemainder secHeading st1
      else if buffer ≠ [] ∧ st1.rev ≠ [] then
        gMergeLast (trimStr buffer) bufTokens st1
      else st1

mutual

/-- processSection with bookkeeping. -/
def gProcessSection (u : Nat → Str) (d : DocInfo) :
    Nat → ParsedSection → List Str → GState → GState
  | 0, _, _, st => st
  | fuel + 1, s, path, st =>
      let currentPath := if s.heading ≠ [] then path ++ [s.heading] else path
      let content := trimStr s.content
      let st1 :=
        if content ≠ [] then
          let tokens := estimateTokens content
          if tokens > MAX_CHUNK_TOKENS then
            gSplitEmit u d s.heading currentPath content st
          else if tokens ≥ MIN_CHUNK_TOKENS then
            gPushChunk u d currentPath (headingFallback s.heading currentPath)
              content tokens Branch.direct s.heading st
          else if st.rev ≠ [] then
            gMergeLast content tokens st
          else
            gPushChunk u d currentPath
              (if s.heading ≠ [] then s.heading else str "Introduction")
              content tokens Branch.smallFirst s.heading st
        else st
      gProcessSections u d fuel s.children currentPath st1

/-- Iteration of gProcessSection over a section list. -/
def gProcessSections (u : Nat → Str) (d : DocInfo) :
    Nat → List ParsedSection → List Str → GState → GState
  | 0, _, _, st => st
  | _ + 1, [], _, st => st
  | fuel + 1, s :: rest, path, st =>
      gProcessSections u d fuel rest path (gProcessSection u d fuel s path st)

end

/-- sectionsToChunks with bookkeeping. -/
def gSectionsToChunks (u : Nat → Str) (sections : List ParsedSection)
    (docId docTitle docUrl : Str) (parentPath : List Str := []) :
    List GChunk :=
  (gProcessSections u ⟨docId, docTitle, docUrl⟩ (secsFuel sections) sections
    parentPath gInitialState).rev.reverse

/-! Definitions written from the specification text, for comparison with
the definitions translated from the source. -/

/-- Written from the spec: a sentence-terminating period exists after
character 100 of the slice. -/
def periodIdxAfter100 (slice : Str) : Bool :=
  (List.range slice.length).any fun i =>
    decide (100 < i) && decide (slice.getD i ' ' = '.')

/-- Written from the spec (section 4.3): select the chunk whose heading
case-insensitively contains intro, else the first chunk; take the first
300 characters; if a period exists after character 100 truncate inclusive
of the last period, otherwise append an ellipsis; zero chunks give the
empty string. -/
def generateSummarySpec (chunks : List Chunk) : Str :=
  match chunks with
  | [] => []
  | c0 :: _ =>
      let sel :=
        ((chunks.filter
            (fun c => containsSub (toLowerStr c.heading) (str "intro"))).head?).getD
          c0
      let slice := sel.content.take 300
      if periodIdxAfter100 slice then
        slice.take (((lastIdxOf slice '.').getD 0) + 1)
      else slice ++ str "..."

/-- The last non-empty element of a breadcrumb. -/
def lastNonEmpty (path : List Str) : Option Str :=
  (path.filter (· ≠ [])).getLast?

/-- Written from the spec (section 4.2 heading assignment), the heading
policy the spec claims applies in every emission branch: the section's
own heading; if empty, the last non-empty breadcrumb element; else the
literal Content. -/
def claimedHeadingPolicy (secHeading : Str) (path : List Str) : Str :=
  if secHeading ≠ [] then secHeading
  else
    match lastNonEmpty path with
    | some x => x
    | none => str "Content"

/-- Whether a text contains a blank-line paragraph break. -/
def hasBlankLine (s : Str) : Bool := containsSub s sepNl

/-- A chunk with its randomly generated identifier erased. -/
def stripId (c : Chunk) : Chunk := { c with id := [] }

/-- Whether the immediate children of every root of a forest have levels
strictly greater than their parent's. -/
def rootChildLevelsOk (forest : List ParsedSection) : Bool :=
  forest.all fun s => s.children.all fun c => decide (s.level < c.level)

/-- Facts that hold of every emitted chunk, relating its final fields to
its emission-time bookkeeping. -/
structure GInv (g : GChunk) : Prop where
  emit_le : g.emitTokens ≤ g.token_count
  emit_pre : ∃ t, g.content = g.emitContent ++ t
  path_ne : ∀ h ∈ g.section_path, h ≠ []
  hdirect : g.branch = Branch.direct →
    MIN_CHUNK_TOKENS ≤ g.emitTokens ∧ g.emitTokens ≤ MAX_CHUNK_TOKENS ∧
    g.emitContent ≠ [] ∧ g.emitTokens = estimateTokens g.emitContent ∧
    g.heading = headingFallback g.secHeading g.section_path
  hsmall : g.branch = Branch.smallFirst →
    g.emitTokens < MIN_CHUNK_TOKENS ∧ g.chunk_index = 0 ∧
    g.emitContent ≠ [] ∧ g.emitTokens = estimateTokens g.emitContent ∧
    g.heading = (if g.secHeading ≠ [] then g.secHeading else str "Introduction")
  hflush : g.branch = Branch.splitFlush →
    g.heading = headingFallback g.secHeading g.section_path
  hrem : g.branch = Branch.splitRemainder →
    MIN_CHUNK_TOKENS ≤ g.emitTokens ∧
    g.heading = headingFallback g.secHeading g.section_path

/-- The state invariant maintained by the instrumented pipeline. -/
structure GSInv (st : GState) : Prop where
  idx_eq : st.idx = st.rev.length
  idx_map : st.rev.map (fun g => g.chunk_index) = (List.range st.idx).reverse
  inv : ∀ g ∈ st.rev, GInv g

/-- Two chunker states that agree up to chunk identifiers. -/
def SimR (st1 st2 : ChunkState) : Prop :=
  st1.idx = st2.idx ∧ st1.rev.map stripId = st2.rev.map stripId

/-! Supporting lemmas for the summarizer. -/

theorem find?_eq_head_filter {α} (p : α → Bool) (l : List α) :
    l.find? p = (l.filter p).head? := by
  induction l with
  | nil => rfl
  | cons a t ih =>
      by_cases h : p a
      · rw [List.find?_cons_of_pos _ h, List.filter_cons_of_pos h, List.head?_cons]
      · rw [List.find?_cons_of_neg _ h, List.filter_cons_of_neg h, ih]

theorem lastIdxOf_sound (t : Char) :
    ∀ (s : Str) (i : Nat), lastIdxOf s t = some i →
      i < s.length ∧ s.getD i ' ' = t := by
  intro s
  induction s with
  | nil => intro i h; simp [lastIdxOf] at h
  | cons c rest ih =>
      intro i h
      rw [lastIdxOf] at h
      cases hr : lastIdxOf rest t with
      | some j =>
          rw [hr] at h
          cases h
          have := ih j hr
          constructor
          · simpa using Nat.succ_lt_succ this.1
          · simpa using this.2
      | none =>
          rw [hr] at h
          by_cases hc : c = t
          · simp [hc] at h
            cases h
            simp [hc]
          · simp [hc] at h

theorem lastIdxOf_none (t : Char) :
    ∀ (s : Str), lastIdxOf s t = none →
      ∀ j, j < s.length → s.getD j ' ' ≠ t := by
  intro s
  induction s with
  | nil => intro _ j hj; simp at hj
  | cons c rest ih =>
      intro h j hj
      rw [lastIdxOf] at h
      cases hr : lastIdxOf rest t with
      | some i => rw [hr] at h; cases h
      | none =>
          rw [hr] at h
          by_cases hc : c = t
          · simp [hc] at h
          · cases j with
            | zero => simpa using hc
            | succ k =>
                have hk : k < rest.length := by simpa using hj
                simpa using ih hr k hk

theorem lastIdxOf_maximal (t : Char) :
    ∀ (s : Str) (i : Nat), lastIdxOf s t = some i →
      ∀ j, i < j → j < s.length → s.getD j ' ' ≠ t := by
  intro s
  induction s with
  | nil => intro i h; simp [lastIdxOf] at h
  | cons c rest ih =>
      intro i h j hij hj
      rw [lastIdxOf] at h
      cases hr : lastIdxOf rest t with
      | some m =>
          rw [hr] at h
          cases h
          cases j with
          | zero => omega
          | succ k =>
              have hk : k < rest.length := by simpa using hj
              simpa using ih m hr k (by omega) hk
      | none =>
          rw [hr] at h
          by_cases hc : c = t
          · simp [hc] at h
            cases h
            cases j with
            | zero => omega
            | succ k =>
                have hk : k < rest.length := by simpa using hj
                simpa using lastIdxOf_none t rest hr k hk
          · simp [hc] at h

theorem periodIdxAfter100_iff (slice : Str) :
    periodIdxAfter100 slice = true ↔
      ∃ i, lastIdxOf slice '.' = some i ∧ 100 < i := by
  unfold periodIdxAfter100
  rw [List.any_eq_true]
  constructor
  · rintro ⟨j, hjmem, hj⟩
    have hjlen : j < slice.length := List.mem_range.mp hjmem
    simp only [Bool.and_eq_true, decide_eq_true_eq] at hj
    cases hl : lastIdxOf slice '.' with
    | none => exact absurd hj.2 (lastIdxOf_none '.' slice hl j hjlen)
    | some i =>
        refine ⟨i, rfl, ?_⟩
        by_cases hij : i < j
        · exact absurd hj.2 (lastIdxOf_maximal '.' slice i hl j hij hjlen)
        · omega
  · rintro ⟨i, hl, hi⟩
    have := lastIdxOf_sound '.' slice i hl
    exact ⟨i, List.mem_range.mpr this.1, by
      simp only [Bool.and_eq_true, decide_eq_true_eq]
      exact ⟨hi, this.2⟩⟩

theorem truncation_eq (slice : Str) :
    (match lastIdxOf slice '.' with
     | some i => if i > 100 then slice.take (i + 1) else slice ++ str "..."
     | none => slice ++ str "...") =
    (if periodIdxAfter100 slice then
      slice.take (((lastIdxOf slice '.').getD 0) + 1)
     else slice ++ str "...") := by
  cases hl : lastIdxOf slice '.' with
  | none =>
      cases hp : periodIdxAfter100 slice with
      | false => simp
      | true =>
          obtain ⟨i, hi, _⟩ := (periodIdxAfter100_iff slice).mp hp
          rw [hl] at hi
          cases hi
  | some i =>
      by_cases hi : 100 < i
      · have hp : periodIdxAfter100 slice = true :=
          (periodIdxAfter100_iff slice).mpr ⟨i, hl, hi⟩
        simp [hp, hl, hi]
      · cases hp : periodIdxAfter100 slice with
        | false => simp [hi]
        | true =>
            obtain ⟨j, hj, hj100⟩ := (periodIdxAfter100_iff slice).mp hp
            rw [hl] at hj
            cases hj
            omega

/-! Projection lemmas: forgetting the bookkeeping of the instrumented
pipeline yields the plain pipeline. -/

@[simp] theorem GState.project_rev (st : GState) :
    st.project.rev = st.rev.map GChunk.toChunk := rfl

@[simp] theorem GState.project_idx (st : GState) :
    st.project.idx = st.idx := rfl

theorem project_pushChunk (u : Nat → Str) (d : DocInfo) (path : List Str)
    (heading content : Str) (tokens : Nat) (b : Branch) (sh : Str)
    (st : GState) :
    (gPushChunk u d path heading content tokens b sh st).project =
      pushChunk u d path heading content tokens st.project := rfl

theorem project_mergeLast (extra : Str) (tokens : Nat) (st : GState) :
    (gMergeLast extra tokens st).project = mergeLast extra tokens st.project := by
  cases st with
  | mk rev idx =>
      cases rev with
      | nil => rfl
      | cons c rest => rfl

theorem project_splitLoop (u : Nat → Str) (d : DocInfo) (sh : Str)
    (path : List Str) :
    ∀ (paras : List Str) (buffer : Str) (bufTokens : Nat) (st : GState),
      ((gSplitLoop u d sh path paras buffer bufTokens st).1.project,
       (gSplitLoop u d sh path paras buffer bufTokens st).2) =
      splitLoop u d sh path paras buffer bufTokens st.project := by
  intro paras
  induction paras with
  | nil => intro buffer bufTokens st; rfl
  | cons para rest ih =>
      intro buffer bufTokens st
      rw [gSplitLoop, splitLoop]
      by_cases h : bufTokens + estimateTokens para > TARGET_CHUNK_TOKENS ∧
          buffer ≠ []
      · simp only [if_pos h]
        rw [← project_pushChunk u d path (headingFallback sh path)
          (trimStr buffer) bufTokens Branch.splitFlush sh st]
        exact ih _ _ _
      · simp only [if_neg h]
        exact ih _ _ _

theorem project_splitEmit (u : Nat → Str) (d : DocInfo) (sh : Str)
    (path : List Str) (content : Str) (st : GState) :
    (gSplitEmit u d sh path content st).project =
      splitEmit u d sh path content st.project := by
  rw [gSplitEmit, splitEmit, ← project_splitLoop u d sh path (splitParas content) [] 0 st]
  cases hl : gSplitLoop u d sh path (splitParas content) [] 0 st with
  | mk st1 rest =>
      cases rest with
      | mk buffer bufTokens =>
          simp only []
          by_cases h1 : buffer ≠ [] ∧ bufTokens ≥ MIN_CHUNK_TOKENS
          · simp only [if_pos h1]
            exact project_pushChunk _ _ _ _ _ _ _ _ _
          · simp only [if_neg h1]
            by_cases h2 : buffer ≠ [] ∧ st1.rev ≠ []
            · have h2p : buffer ≠ [] ∧ st1.project.rev ≠ [] := by
                simpa using h2
              simp only [if_pos h2, if_pos h2p]
              exact project_mergeLast _ _ _
            · have h2p : ¬ (buffer ≠ [] ∧ st1.project.rev ≠ []) := by
                simpa using h2
              simp only [if_neg h2, if_neg h2p]

theorem project_processBoth (u : Nat → Str) (d : DocInfo) : ∀ fuel : Nat,
    (∀ (s : ParsedSection) (path : List Str) (st : GState),
      (gProcessSection u d fuel s path st).project =
        processSection u d fuel s path st.project) ∧
    (∀ (ss : List ParsedSection) (path : List Str) (st : GState),
      (gProcessSections u d fuel ss path st).project =
        processSections u d fuel ss path st.project) := by
  intro fuel
  induction fuel with
  | zero => exact ⟨fun s path st => rfl, fun ss path st => rfl⟩
  | succ n ih =>
      refine ⟨?_, ?_⟩
      · intro s path st
        have hrec := fun st' => ih.2 s.children
          (if s.heading ≠ [] then path ++ [s.heading] else path) st'
        simp only [gProcessSection, processSection]
        by_cases h1 : trimStr s.content ≠ []
        · by_cases h2 : estimateTokens (trimStr s.content) > MAX_CHUNK_TOKENS
          · simp only [if_pos h1, if_pos h2]
            rw [hrec, project_splitEmit]
          · by_cases h3 : estimateTokens (trimStr s.content) ≥ MIN_CHUNK_TOKENS
            · simp only [if_pos h1, if_neg h2, if_pos h3]
              rw [hrec, project_pushChunk]
            · by_cases h4 : st.rev ≠ []
              · have h4p : st.project.rev ≠ [] := by simpa using h4
                simp only [if_pos h1, if_neg h2, if_neg h3, if_pos h4,
                  if_pos h4p]
                rw [hrec, project_mergeLast]
              · have h4p : ¬ st.project.rev ≠ [] := by simpa using h4
                simp only [if_pos h1, if_neg h2, if_neg h3, if_neg h4,
                  if_neg h4p]
                rw [hrec, project_pushChunk]
        · simp only [if_neg h1]
          exact hrec st
      · intro ss path st
        cases ss with
        | nil => rfl
        | cons s rest =>
            simp only [gProcessSections, processSections]
            rw [ih.2 rest path (gProcessSection u d n s path st),
              ih.1 s path st]

theorem project_sectionsToChunks (u : Nat → Str)
    (sections : List ParsedSection) (docId docTitle docUrl : Str)
    (parentPath : List Str) :
    (gSectionsToChunks u sections docId docTitle docUrl parentPath).map
        GChunk.toChunk =
      sectionsToChunks u sections docId docTitle docUrl parentPath := by
  unfold gSectionsToChunks sectionsToChunks
  rw [List.map_reverse]
  have h := (project_processBoth u ⟨docId, docTitle, docUrl⟩
    (secsFuel sections)).2 sections parentPath gInitialState
  have h2 : (gProcessSections u ⟨docId, docTitle, docUrl⟩ (secsFuel sections)
      sections parentPath gInitialState).rev.map GChunk.toChunk =
      (processSections u ⟨docId, docTitle, docUrl⟩ (secsFuel sections) sections
        parentPath initialState).rev := congrArg ChunkState.rev h
  rw [h2]

theorem GSInv_initial : GSInv gInitialState :=
  ⟨rfl, rfl, by intro g hg; cases hg⟩

theorem GSInv_gPushChunk (u : Nat → Str) (d : DocInfo) (path : List Str)
    (heading content : Str) (tokens : Nat) (b : Branch) (sh : Str)
    (st : GState) (hst : GSInv st)
    (hpath : ∀ h ∈ path, h ≠ [])
    (hd : b = Branch.direct →
      MIN_CHUNK_TOKENS ≤ tokens ∧ tokens ≤ MAX_CHUNK_TOKENS ∧
      content ≠ [] ∧ tokens = estimateTokens content ∧
      heading = headingFallback sh path)
    (hs : b = Branch.smallFirst →
      tokens < MIN_CHUNK_TOKENS ∧ st.rev = [] ∧
      content ≠ [] ∧ tokens = estimateTokens content ∧
      heading = (if sh ≠ [] then sh else str "Introduction"))
    (hf : b = Branch.splitFlush → heading = headingFallback sh path)
    (hr : b = Branch.splitRemainder →
      MIN_CHUNK_TOKENS ≤ tokens ∧ heading = headingFallback sh path) :
    GSInv (gPushChunk u d path heading content tokens b sh st) := by
  obtain ⟨hidx, hmap, hinv⟩ := hst
  refine ⟨?_, ?_, ?_⟩
  · simp [gPushChunk, hidx]
  · simp only [gPushChunk, List.map_cons, hmap, List.range_succ,
      List.reverse_append, List.reverse_cons, List.reverse_nil,
      List.nil_append, List.cons_append]
  · intro g hg
    simp only [gPushChunk, List.mem_cons] at hg
    cases hg with
    | inr h => exact hinv g h
    | inl h =>
        subst h
        refine ⟨Nat.le_refl _, ⟨[], (List.append_nil _).symm⟩, hpath,
          ?_, ?_, ?_, ?_⟩
        · intro hb
          exact hd hb
        · intro hb
          obtain ⟨h1, h2, h3, h4, h5⟩ := hs hb
          refine ⟨h1, ?_, h3, h4, h5⟩
          simp only []
          rw [hidx, h2]
          rfl
        · intro hb
          exact hf hb
        · intro hb
          exact hr hb

theorem GSInv_gMergeLast (extra : Str) (tokens : Nat) (st : GState)
    (hst : GSInv st) : GSInv (gMergeLast extra tokens st) := by
  obtain ⟨hidx, hmap, hinv⟩ := hst
  cases hrev : st.rev with
  | nil => simpa [gMergeLast, hrev] using ⟨hidx, hmap, hinv⟩
  | cons c rest =>
      rw [hrev] at hidx hmap
      constructor
      · simpa [gMergeLast, hrev] using hidx
      · simpa [gMergeLast, hrev] using hmap
      · intro g hg
        simp only [gMergeLast, hrev, List.mem_cons] at hg
        cases hg with
        | inr h => exact hinv g (by rw [hrev]; exact List.mem_cons_of_mem _ h)
        | inl h =>
            subst h
            have hc : GInv c := hinv c (by rw [hrev]; exact List.mem_cons_self _ _)
            obtain ⟨h1, ⟨t, ht⟩, h3, h4, h5, h6, h7⟩ := hc
            exact ⟨Nat.le_trans h1 (Nat.le_add_right _ _),
              ⟨t ++ sepNl ++ extra, by
                simp only [ht, List.append_assoc]⟩,
              h3, h4, h5, h6, h7⟩

theorem GSInv_gSplitLoop (u : Nat → Str) (d : DocInfo) (sh : Str)
    (path : List Str) (hpath : ∀ h ∈ path, h ≠ []) :
    ∀ (paras : List Str) (buffer : Str) (bufTokens : Nat) (st : GState),
      GSInv st → GSInv (gSplitLoop u d sh path paras buffer bufTokens st).1 := by
  intro paras
  induction paras with
  | nil => intro buffer bufTokens st hst; exact hst
  | cons para rest ih =>
      intro buffer bufTokens st hst
      rw [gSplitLoop]
      by_cases h : bufTokens + estimateTokens para > TARGET_CHUNK_TOKENS ∧
          buffer ≠ []
      · simp only [if_pos h]
        refine ih _ _ _ ?_
        refine GSInv_gPushChunk u d path _ _ _ _ _ _ hst hpath ?_ ?_ ?_ ?_
        all_goals intro hb
        all_goals cases hb
        rfl
      · simp only [if_neg h]
        exact ih _ _ _ hst

theorem GSInv_gSplitEmit (u : Nat → Str) (d : DocInfo) (sh : Str)
    (path : List Str) (content : Str) (st : GState)
    (hpath : ∀ h ∈ path, h ≠ []) (hst : GSInv st) :
    GSInv (gSplitEmit u d sh path content st) := by
  rw [gSplitEmit]
  have hloop := GSInv_gSplitLoop u d sh path hpath (splitParas content) [] 0
    st hst
  cases hl : gSplitLoop u d sh path (splitParas content) [] 0 st with
  | mk st1 rest =>
      rw [hl] at hloop
      cases rest with
      | mk buffer bufTokens =>
          simp only []
          by_cases h1 : buffer ≠ [] ∧ bufTokens ≥ MIN_CHUNK_TOKENS
          · simp only [if_pos h1]
            refine GSInv_gPushChunk u d path _ _ _ _ _ _ hloop hpath ?_ ?_ ?_ ?_
            all_goals intro hb
            all_goals cases hb
            exact ⟨h1.2, rfl⟩
          · simp only [if_neg h1]
            by_cases h2 : buffer ≠ [] ∧ st1.rev ≠ []
            · simp only [if_pos h2]
              exact GSInv_gMergeLast _ _ _ hloop
            · simp only [if_neg h2]
              exact hloop

theorem GSInv_gProcessBoth (u : Nat → Str) (d : DocInfo) : ∀ fuel : Nat,
    (∀ (s : ParsedSection) (path : List Str) (st : GState),
      (∀ h ∈ path, h ≠ []) → GSInv st →
      GSInv (gProcessSection u d fuel s path st)) ∧
    (∀ (ss : List ParsedSection) (path : List Str) (st : GState),
      (∀ h ∈ path, h ≠ []) → GSInv st →
      GSInv (gProcessSections u d fuel ss path st)) := by
  intro fuel
  induction fuel with
  | zero => exact ⟨fun _ _ _ _ hst => hst, fun _ _ _ _ hst => hst⟩
  | succ n ih =>
      refine ⟨?_, ?_⟩
      · intro s path st hpath hst
        have hcp : ∀ h ∈ (if s.heading ≠ [] then path ++ [s.heading] else path),
            h ≠ [] := by
          by_cases hh : s.heading ≠ []
          · simp only [if_pos hh]
            intro x hx
            cases List.mem_append.mp hx with
            | inl h => exact hpath x h
            | inr h => simpa using (by simpa using h) ▸ hh
          · simp only [if_neg hh]
            exact hpath
        have hrec := fun st' hst' => ih.2 s.children
          (if s.heading ≠ [] then path ++ [s.heading] else path) st' hcp hst'
        simp only [gProcessSection]
        by_cases h1 : trimStr s.content ≠ []
        · by_cases h2 : estimateTokens (trimStr s.content) > MAX_CHUNK_TOKENS
          · simp only [if_pos h1, if_pos h2]
            exact hrec _ (GSInv_gSplitEmit u d s.heading _ _ st hcp hst)
          · by_cases h3 : estimateTokens (trimStr s.content) ≥ MIN_CHUNK_TOKENS
            · simp only [if_pos h1, if_neg h2, if_pos h3]
              refine hrec _
                (GSInv_gPushChunk u d _ _ _ _ _ _ _ hst hcp ?_ ?_ ?_ ?_)
              all_goals intro hb
              all_goals cases hb
              exact ⟨h3, by omega, h1, rfl, rfl⟩
            · by_cases h4 : st.rev ≠ []
              · simp only [if_pos h1, if_neg h2, if_neg h3, if_pos h4]
                exact hrec _ (GSInv_gMergeLast _ _ st hst)
              · simp only [if_pos h1, if_neg h2, if_neg h3, if_neg h4]
                refine hrec _
                  (GSInv_gPushChunk u d _ _ _ _ _ _ _ hst hcp ?_ ?_ ?_ ?_)
                all_goals intro hb
                all_goals cases hb
                refine ⟨by omega, by simpa using h4, h1, rfl, rfl⟩
        · simp only [if_neg h1]
          exact hrec st hst
      · intro ss path st hpath hst
        cases ss with
        | nil => simpa only [gProcessSections] using hst
        | cons s rest =>
            simp only [gProcessSections]
            exact ih.2 rest path _ hpath (ih.1 s path st hpath hst)

theorem GSInv_run (u : Nat → Str) (sections : List ParsedSection)
    (docId docTitle docUrl : Str) :
    GSInv (gProcessSections u ⟨docId, docTitle, docUrl⟩ (secsFuel sections)
      sections [] gInitialState) :=
  (GSInv_gProcessBoth u ⟨docId, docTitle, docUrl⟩ (secsFuel sections)).2
    sections [] gInitialState (by intro h hh; cases hh) GSInv_initial

/-! Simulation: two runs with different uuid supplies agree on every
field except the identifier. -/

theorem SimR_pushChunk (u1 u2 : Nat → Str) (d : DocInfo) (path : List Str)
    (heading content : Str) (tokens : Nat) (st1 st2 : ChunkState)
    (h : SimR st1 st2) :
    SimR (pushChunk u1 d path heading content tokens st1)
      (pushChunk u2 d path heading content tokens st2) := by
  obtain ⟨hi, hm⟩ := h
  refine ⟨by simp [pushChunk, hi], ?_⟩
  simp only [pushChunk, List.map_cons, hm]
  congr 1
  simp [stripId, hi]

theorem SimR_mergeLast (extra : Str) (tokens : Nat) (st1 st2 : ChunkState)
    (h : SimR st1 st2) :
    SimR (mergeLast extra tokens st1) (mergeLast extra tokens st2) := by
  obtain ⟨hi, hm⟩ := h
  cases hr1 : st1.rev with
  | nil =>
      cases hr2 : st2.rev with
      | nil =>
          rw [mergeLast, mergeLast, hr1, hr2]
          exact ⟨hi, hm⟩
      | cons c2 r2 =>
          rw [hr1, hr2] at hm
          simp at hm
  | cons c1 r1 =>
      cases hr2 : st2.rev with
      | nil =>
          rw [hr1, hr2] at hm
          simp at hm
      | cons c2 r2 =>
          rw [mergeLast, mergeLast, hr1, hr2]
          rw [hr1, hr2] at hm
          simp only [List.map_cons, List.cons.injEq] at hm
          obtain ⟨hc, hr⟩ := hm
          refine ⟨hi, ?_⟩
          simp only [List.map_cons, List.cons.injEq]
          refine ⟨?_, hr⟩
          simp only [stripId, Chunk.mk.injEq, true_and] at hc ⊢
          obtain ⟨f1, f2, f3, f4, f5, f6, f7, f8⟩ := hc
          exact ⟨f1, f2, f3, f4, f5, by rw [f6], by rw [f7], f8⟩

theorem SimR_splitLoop (u1 u2 : Nat → Str) (d : DocInfo) (sh : Str)
    (path : List Str) :
    ∀ (paras : List Str) (buffer : Str) (bufTokens : Nat)
      (st1 st2 : ChunkState), SimR st1 st2 →
      SimR (splitLoop u1 d sh path paras buffer bufTokens st1).1
          (splitLoop u2 d sh path paras buffer bufTokens st2).1 ∧
        (splitLoop u1 d sh path paras buffer bufTokens st1).2 =
          (splitLoop u2 d sh path paras buffer bufTokens st2).2 := by
  intro paras
  induction paras with
  | nil => intro buffer bufTokens st1 st2 h; exact ⟨h, rfl⟩
  | cons para rest ih =>
      intro buffer bufTokens st1 st2 h
      rw [splitLoop, splitLoop]
      by_cases hc : bufTokens + estimateTokens para > TARGET_CHUNK_TOKENS ∧
          buffer ≠ []
      · simp only [if_pos hc]
        exact ih _ _ _ _ (SimR_pushChunk u1 u2 d path _ _ _ _ _ h)
      · simp only [if_neg hc]
        exact ih _ _ _ _ h

theorem SimR_splitEmit (u1 u2 : Nat → Str) (d : DocInfo) (sh : Str)
    (path : List Str) (content : Str) (st1 st2 : ChunkState)
    (h : SimR st1 st2) :
    SimR (splitEmit u1 d sh path content st1)
      (splitEmit u2 d sh path content st2) := by
  rw [splitEmit, splitEmit]
  have hl := SimR_splitLoop u1 u2 d sh path (splitParas content) [] 0 st1 st2 h
  cases h1 : splitLoop u1 d sh path (splitParas content) [] 0 st1 with
  | mk sta restA =>
      cases h2 : splitLoop u2 d sh path (splitParas content) [] 0 st2 with
      | mk stb restB =>
          rw [h1, h2] at hl
          obtain ⟨hsim, heq⟩ := hl
          simp only [] at hsim heq
          cases restA with
          | mk bufA tokA =>
              cases restB with
              | mk bufB tokB =>
                  cases heq
                  simp only []
                  by_cases hb1 : bufA ≠ [] ∧ tokA ≥ MIN_CHUNK_TOKENS
                  · simp only [if_pos hb1]
                    exact SimR_pushChunk u1 u2 d path _ _ _ _ _ hsim
                  · simp only [if_neg hb1]
                    have hrev : sta.rev = [] ↔ stb.rev = [] := by
                      constructor
                      · intro hh
                        have := hsim.2
                        rw [hh] at this
                        simpa using this.symm
                      · intro hh
                        have := hsim.2
                        rw [hh] at this
                        simpa using this
                    by_cases hb2 : bufA ≠ [] ∧ sta.rev ≠ []
                    · have hb2b : bufA ≠ [] ∧ stb.rev ≠ [] :=
                        ⟨hb2.1, fun hh => hb2.2 (hrev.mpr hh)⟩
                      simp only [if_pos hb2, if_pos hb2b]
                      exact SimR_mergeLast _ _ _ _ hsim
                    · have hb2b : ¬ (bufA ≠ [] ∧ stb.rev ≠ []) := by
                        intro hh
                        exact hb2 ⟨hh.1, fun h0 => hh.2 (hrev.mp h0)⟩
                      simp only [if_neg hb2, if_neg hb2b]
                      exact hsim

theorem SimR_processBoth (u1 u2 : Nat → Str) (d : DocInfo) : ∀ fuel : Nat,
    (∀ (s : ParsedSection) (path : List Str) (st1 st2 : ChunkState),
      SimR st1 st2 →
      SimR (processSection u1 d fuel s path st1)
        (processSection u2 d fuel s path st2)) ∧
    (∀ (ss : List ParsedSection) (path : List Str) (st1 st2 : ChunkState),
      SimR st1 st2 →
      SimR (processSections u1 d fuel ss path st1)
        (processSections u2 d fuel ss path st2)) := by
  intro fuel
  induction fuel with
  | zero => exact ⟨fun _ _ _ _ h => h, fun _ _ _ _ h => h⟩
  | succ n ih =>
      refine ⟨?_, ?_⟩
      · intro s path st1 st2 h
        have hrec := fun st1' st2' h' => ih.2 s.children
          (if s.heading ≠ [] then path ++ [s.heading] else path) st1' st2' h'
        simp only [processSection]
        by_cases h1 : trimStr s.content ≠ []
        · by_cases h2 : estimateTokens (trimStr s.content) > MAX_CHUNK_TOKENS
          · simp only [if_pos h1, if_pos h2]
            exact hrec _ _ (SimR_splitEmit u1 u2 d s.heading _ _ st1 st2 h)
          · by_cases h3 : estimateTokens (trimStr s.content) ≥ MIN_CHUNK_TOKENS
            · simp only [if_pos h1, if_neg h2, if_pos h3]
              exact hrec _ _ (SimR_pushChunk u1 u2 d _ _ _ _ _ _ h)
            · have hrev : st1.rev = [] ↔ st2.rev = [] := by
                constructor
                · intro hh
                  have := h.2
                  rw [hh] at this
                  simpa using this.symm
                · intro hh
                  have := h.2
                  rw [hh] at this
                  simpa using this
              by_cases h4 : st1.rev ≠ []
              · have h4b : st2.rev ≠ [] := fun hh => h4 (hrev.mpr hh)
                simp only [if_pos h1, if_neg h2, if_neg h3, if_pos h4,
                  if_pos h4b]
                exact hrec _ _ (SimR_mergeLast _ _ _ _ h)
              · have h4b : ¬ st2.rev ≠ [] :=
                  fun hh => h4 fun h0 => hh (hrev.mp h0)
                simp only [if_pos h1, if_neg h2, if_neg h3, if_neg h4,
                  if_neg h4b]
                exact hrec _ _ (SimR_pushChunk u1 u2 d _ _ _ _ _ _ h)
        · simp only [if_neg h1]
          exact hrec st1 st2 h
      · intro ss path st1 st2 h
        cases ss with
        | nil => simpa only [processSections] using h
        | cons s rest =>
            simp only [processSections]
            exact ih.2 rest path _ _ (ih.1 s path st1 st2 h)

theorem SimR_run (u1 u2 : Nat → Str) (sections : List ParsedSection)
    (docId docTitle docUrl : Str) (parentPath : List Str) :
    (sectionsToChunks u1 sections docId docTitle docUrl parentPath).map
        stripId =
      (sectionsToChunks u2 sections docId docTitle docUrl parentPath).map
        stripId := by
  unfold sectionsToChunks
  rw [List.map_reverse, List.map_reverse]
  have h := (SimR_processBoth u1 u2 ⟨docId, docTitle, docUrl⟩
    (secsFuel sections)).2 sections parentPath initialState initialState
    ⟨rfl, rfl⟩
  rw [h.2]

theorem find?_stripId (p : Chunk → Bool) (hp : ∀ c, p c = p (stripId c)) :
    ∀ (l1 l2 : List Chunk), l1.map stripId = l2.map stripId →
      (l1.find? p).map stripId = (l2.find? p).map stripId := by
  intro l1
  induction l1 with
  | nil =>
      intro l2 h
      cases l2 with
      | nil => rfl
      | cons c2 r2 => simp at h
  | cons c1 r1 ih =>
      intro l2 h
      cases l2 with
      | nil => simp at h
      | cons c2 r2 =>
          simp only [List.map_cons, List.cons.injEq] at h
          obtain ⟨hh, ht⟩ := h
          have hpp : p c1 = p c2 := by
            rw [hp c1, hp c2, hh]
          by_cases hc : p c1
          · rw [List.find?_cons_of_pos _ hc,
              List.find?_cons_of_pos _ (hpp ▸ hc)]
            simpa using hh
          · rw [List.find?_cons_of_neg _ hc,
              List.find?_cons_of_neg _ (hpp ▸ hc)]
            exact ih r2 ht

theorem filterMap_stripId {β} (f : Chunk → Option β)
    (hf : ∀ c, f c = f (stripId c)) :
    ∀ (l1 l2 : List Chunk), l1.map stripId = l2.map stripId →
      l1.filterMap f = l2.filterMap f := by
  intro l1
  induction l1 with
  | nil =>
      intro l2 h
      cases l2 with
      | nil => rfl
      | cons c2 r2 => simp at h
  | cons c1 r1 ih =>
      intro l2 h
      cases l2 with
      | nil => simp at h
      | cons c2 r2 =>
          simp only [List.map_cons, List.cons.injEq] at h
          obtain ⟨hh, ht⟩ := h
          have hff : f c1 = f c2 := by
            rw [hf c1, hf c2, hh]
          rw [List.filterMap_cons, List.filterMap_cons, hff, ih r2 ht]

theorem generateSummary_stripId (l1 l2 : List Chunk)
    (h : l1.map stripId = l2.map stripId) :
    generateSummary l1 = generateSummary l2 := by
  cases l1 with
  | nil =>
      cases l2 with
      | nil => rfl
      | cons c2 r2 => simp at h
  | cons c1 r1 =>
      cases l2 with
      | nil => simp at h
      | cons c2 r2 =>
          have hh : stripId c1 = stripId c2 := by
            simp only [List.map_cons, List.cons.injEq] at h
            exact h.1
          have hfind := find?_stripId
            (fun c => containsSub (toLowerStr c.heading) (str "intro"))
            (fun c => rfl) (c1 :: r1) (c2 :: r2) h
          have hcontent :
              (((c1 :: r1).find? fun c =>
                containsSub (toLowerStr c.heading) (str "intro")).getD
                  c1).content =
              (((c2 :: r2).find? fun c =>
                containsSub (toLowerStr c.heading) (str "intro")).getD
                  c2).content := by
            cases hf1 : (c1 :: r1).find? fun c =>
                containsSub (toLowerStr c.heading) (str "intro") with
            | some g1 =>
                cases hf2 : (c2 :: r2).find? fun c =>
                    containsSub (toLowerStr c.heading) (str "intro") with
                | some g2 =>
                    rw [hf1, hf2] at hfind
                    have hsg : stripId g1 = stripId g2 := by
                      simpa using hfind
                    simp only [Option.getD_some]
                    have hgc := congrArg Chunk.content hsg
                    simpa [stripId] using hgc
                | none => rw [hf1, hf2] at hfind; simp at hfind
            | none =>
                cases hf2 : (c2 :: r2).find? fun c =>
                    containsSub (toLowerStr c.heading) (str "intro") with
                | some g2 => rw [hf1, hf2] at hfind; simp at hfind
                | none =>
                    simp only [Option.getD_none]
                    have hgc := congrArg Chunk.content hh
                    simpa [stripId] using hgc
          simp only [generateSummary]
          rw [hcontent]

theorem extractSections_stripId (l1 l2 : List Chunk)
    (h : l1.map stripId = l2.map stripId) :
    extractSections l1 = extractSections l2 := by
  unfold extractSections
  rw [filterMap_stripId (fun c => c.section_path.head?) (fun c => rfl) l1 l2 h]

/-! Lemmas for computing the pipeline symbolically on large replicated
texts, which are too long for kernel evaluation. -/

theorem mem_of_getLastEq : ∀ (l : List Str) (x : Str),
    l.getLast? = some x → x ∈ l := by
  intro l
  induction l with
  | nil => intro x h; simp at h
  | cons a t ih =>
      intro x h
      cases t with
      | nil =>
          simp only [List.getLast?_singleton, Option.some.injEq] at h
          simp [h]
      | cons b t2 =>
          rw [List.getLast?_cons_cons] at h
          exact List.mem_cons_of_mem _ (ih x h)

theorem headingFallback_eq_claimed (h : Str) (path : List Str)
    (hpath : ∀ x ∈ path, x ≠ []) :
    headingFallback h path = claimedHeadingPolicy h path := by
  unfold headingFallback claimedHeadingPolicy lastNonEmpty
  by_cases hh : h ≠ []
  · simp [hh]
  · simp only [if_neg hh]
    have hfilter : path.filter (· ≠ []) = path := by
      rw [List.filter_eq_self]
      intro a ha
      simpa using hpath a ha
    rw [hfilter]
    cases hl : path.getLast? with
    | none => rfl
    | some x =>
        have hx : x ≠ [] := hpath x (mem_of_getLastEq path x hl)
        simp [hx]

theorem splitParasAux_newlines : ∀ (n : Nat) (rest acc : Str) (p : Nat),
    splitParasAux (List.replicate n '\n' ++ rest) acc p =
      splitParasAux rest acc (p + n) := by
  intro n
  induction n with
  | zero => intro rest acc p; simp [List.replicate]
  | succ m ih =>
      intro rest acc p
      rw [List.replicate_succ, List.cons_append, splitParasAux]
      rw [if_pos rfl, ih]
      congr 1
      omega

theorem trimStr_sandwich (c1 c2 : Char) (m : Str)
    (h1 : isWs c1 = false) (h2 : isWs c2 = false) :
    trimStr (c1 :: (m ++ [c2])) = c1 :: (m ++ [c2]) := by
  unfold trimStr
  rw [List.dropWhile_cons_of_neg (by simp [h1])]
  rw [show (c1 :: (m ++ [c2])).reverse = c2 :: (m.reverse ++ [c1]) by
    simp]
  rw [List.dropWhile_cons_of_neg (by simp [h2])]
  simp

theorem replicate_sandwich (c : Char) (n : Nat) :
    List.replicate (n + 2) c = c :: (List.replicate n c ++ [c]) := by
  rw [List.replicate_succ]
  congr 1
  rw [List.replicate_succ']

theorem isPrefixOf_self_append : ∀ (s r : Str),
    s.isPrefixOf (s ++ r) = true := by
  intro s
  induction s with
  | nil => intro r; simp [List.isPrefixOf]
  | cons c t ih =>
      intro r
      simp only [List.cons_append, List.isPrefixOf, beq_self_eq_true,
        Bool.true_and]
      exact ih r

theorem containsSub_mid : ∀ (x s r : Str),
    containsSub (x ++ s ++ r) s = true := by
  intro x
  induction x with
  | nil =>
      intro s r
      cases s with
      | nil =>
          cases r with
          | nil => rfl
          | cons a t => simp [containsSub]
      | cons c t =>
          rw [List.nil_append, List.cons_append, containsSub]
          have hp := isPrefixOf_self_append (c :: t) r
          simp only [List.cons_append] at hp
          rw [hp]
          simp
  | cons a xs ih =>
      intro s r
      rw [List.cons_append, List.cons_append, containsSub]
      rw [ih s r]
      simp

/-! Unfolding lemmas for single processSection steps, used to compute
runs whose texts are too large for kernel evaluation. -/

theorem processSections_nil (u : Nat → Str) (d : DocInfo) (fuel : Nat)
    (path : List Str) (st : ChunkState) :
    processSections u d fuel [] path st = st := by
  cases fuel with
  | zero => rfl
  | succ n => rfl

theorem processSections_cons (u : Nat → Str) (d : DocInfo) (fuel : Nat)
    (s : ParsedSection) (rest : List ParsedSection) (path : List Str)
    (st : ChunkState) :
    processSections u d (fuel + 1) (s :: rest) path st =
      processSections u d fuel rest path
        (processSection u d fuel s path st) := rfl

theorem processSection_leaf_direct (u : Nat → Str) (d : DocInfo)
    (fuel : Nat) (s : ParsedSection) (path : List Str) (st : ChunkState)
    (hch : s.children = [])
    (h1 : trimStr s.content ≠ [])
    (h2 : ¬ estimateTokens (trimStr s.content) > MAX_CHUNK_TOKENS)
    (h3 : estimateTokens (trimStr s.content) ≥ MIN_CHUNK_TOKENS) :
    processSection u d (fuel + 1) s path st =
      pushChunk u d (if s.heading ≠ [] then path ++ [s.heading] else path)
        (headingFallback s.heading
          (if s.heading ≠ [] then path ++ [s.heading] else path))
        (trimStr s.content) (estimateTokens (trimStr s.content)) st := by
  simp only [processSection]
  rw [if_pos h1, if_neg h2, if_pos h3, hch, processSections_nil]

theorem processSection_leaf_mergeSmall (u : Nat → Str) (d : DocInfo)
    (fuel : Nat) (s : ParsedSection) (path : List Str) (st : ChunkState)
    (hch : s.children = [])
    (h1 : trimStr s.content ≠ [])
    (h2 : ¬ estimateTokens (trimStr s.content) > MAX_CHUNK_TOKENS)
    (h3 : ¬ estimateTokens (trimStr s.content) ≥ MIN_CHUNK_TOKENS)
    (h4 : st.rev ≠ []) :
    processSection u d (fuel + 1) s path st =
      mergeLast (trimStr s.content) (estimateTokens (trimStr s.content)) st := by
  simp only [processSection]
  rw [if_pos h1, if_neg h2, if_neg h3, if_pos h4, hch, processSections_nil]

theorem processSection_leaf_smallFirst (u : Nat → Str) (d : DocInfo)
    (fuel : Nat) (s : ParsedSection) (path : List Str) (st : ChunkState)
    (hch : s.children = [])
    (h1 : trimStr s.content ≠ [])
    (h2 : ¬ estimateTokens (trimStr s.content) > MAX_CHUNK_TOKENS)
    (h3 : ¬ estimateTokens (trimStr s.content) ≥ MIN_CHUNK_TOKENS)
    (h4 : ¬ st.rev ≠ []) :
    processSection u d (fuel + 1) s path st =
      pushChunk u d (if s.heading ≠ [] then path ++ [s.heading] else path)
        (if s.heading ≠ [] then s.heading else str "Introduction")
        (trimStr s.content) (estimateTokens (trimStr s.content)) st := by
  simp only [processSection]
  rw [if_pos h1, if_neg h2, if_neg h3, if_neg h4, hch, processSections_nil]

theorem processSection_leaf_split (u : Nat → Str) (d : DocInfo)
    (fuel : Nat) (s : ParsedSection) (path : List Str) (st : ChunkState)
    (hch : s.children = [])
    (h1 : trimStr s.content ≠ [])
    (h2 : estimateTokens (trimStr s.content) > MAX_CHUNK_TOKENS) :
    processSection u d (fuel + 1) s path st =
      splitEmit u d s.heading
        (if s.heading ≠ [] then path ++ [s.heading] else path)
        (trimStr s.content) st := by
  simp only [processSection]
  rw [if_pos h1, if_pos h2, hch, processSections_nil]

theorem mergeLast_eq (extra : Str) (tokens : Nat) (st : ChunkState)
    (c : Chunk) (rest : List Chunk) (h : st.rev = c :: rest) :
    mergeLast extra tokens st =
      ⟨{ c with content := c.content ++ sepNl ++ extra,
                token_count := c.token_count + tokens } :: rest, st.idx⟩ := by
  cases st with
  | mk rev idx =>
      simp only [] at h
      subst h
      rfl

/-- A two-section document: the first section is emitted directly, the
second is below MIN and merged into it; stated with the text sizes as
hypotheses so large texts never need kernel evaluation. -/
theorem run_direct_merge (u : Nat → Str) (dId dT dU : Str)
    (hA hB cA cB : Str) (tA tB : Nat)
    (hhA : hA ≠ [])
    (htA : trimStr cA = cA) (hneA : cA ≠ [])
    (htokA : estimateTokens cA = tA)
    (hminA : MIN_CHUNK_TOKENS ≤ tA) (hmaxA : ¬ tA > MAX_CHUNK_TOKENS)
    (htB : trimStr cB = cB) (hneB : cB ≠ [])
    (htokB : estimateTokens cB = tB)
    (hminB : tB < MIN_CHUNK_TOKENS) :
    sectionsToChunks u [⟨1, hA, cA, []⟩, ⟨1, hB, cB, []⟩] dId dT dU =
      [{ id := u 0, doc_id := dId, doc_title := dT, doc_url := dU,
         section_path := [hA], heading := hA, content := cA ++ sepNl ++ cB,
         token_count := tA + tB, chunk_index := 0 }] := by
  unfold sectionsToChunks
  rw [show secsFuel [⟨1, hA, cA, []⟩, ⟨1, hB, cB, []⟩] = 6 + 1 from rfl]
  rw [processSections_cons]
  rw [processSection_leaf_direct u ⟨dId, dT, dU⟩ 5 ⟨1, hA, cA, []⟩ []
    initialState rfl (by simp only []; rw [htA]; exact hneA)
    (by simp only []; rw [htA, htokA]; exact hmaxA)
    (by simp only []; rw [htA, htokA]; exact hminA)]
  simp only [if_pos hhA, List.nil_append]
  rw [show (6 : Nat) = 5 + 1 from rfl, processSections_cons,
    processSections_nil]
  have hrev : (pushChunk u ⟨dId, dT, dU⟩ [hA] (headingFallback hA [hA])
      (trimStr cA) (estimateTokens (trimStr cA)) initialState).rev =
      { id := u 0, doc_id := dId, doc_title := dT, doc_url := dU,
        section_path := [hA], heading := headingFallback hA [hA],
        content := trimStr cA, token_count := estimateTokens (trimStr cA),
        chunk_index := 0 } :: [] := rfl
  rw [processSection_leaf_mergeSmall u ⟨dId, dT, dU⟩ 4 ⟨1, hB, cB, []⟩ []
    _ rfl (by simp only []; rw [htB]; exact hneB)
    (by simp only []; rw [htB, htokB]; omega)
    (by simp only []; rw [htB, htokB]; omega)
    (by rw [hrev]; simp)]
  rw [mergeLast_eq _ _ _ _ _ hrev]
  have hhead : headingFallback hA [hA] = hA := by
    unfold headingFallback
    rw [if_pos hhA]
  simp only [htA, htB, htokA, htokB, hhead, pushChunk, initialState]
  rfl

/-- A single oversized section whose paragraph loop emits nothing and
leaves a below-MIN remainder: the whole document yields no chunks. -/
theorem run_oversized_drop (u : Nat → Str) (dId dT dU : Str)
    (s : ParsedSection) (buf : Str) (bt : Nat)
    (hch : s.children = [])
    (h1 : trimStr s.content ≠ [])
    (h2 : estimateTokens (trimStr s.content) > MAX_CHUNK_TOKENS)
    (hsl : splitLoop u ⟨dId, dT, dU⟩ s.heading
        (if s.heading ≠ [] then [s.heading] else [])
        (splitParas (trimStr s.content)) [] 0 initialState =
        (initialState, buf, bt))
    (_hbuf : buf ≠ []) (hsmall : bt < MIN_CHUNK_TOKENS) :
    sectionsToChunks u [s] dId dT dU = [] := by
  unfold sectionsToChunks
  rw [show secsFuel [s] = (secFuel s + 1) + 1 from rfl]
  rw [processSections_cons, processSections_nil]
  rw [processSection_leaf_split u ⟨dId, dT, dU⟩ (secFuel s) s []
    initialState hch h1 h2]
  rw [splitEmit]
  simp only [List.nil_append]
  rw [hsl]
  simp only []
  rw [if_neg (by intro hcon; omega)]
  rw [if_neg (by intro hcon; exact absurd hcon.2 (by simp [initialState]))]
  rfl

theorem replicate_ne_nil (c : Char) (n : Nat) (hn : 1 ≤ n) :
    List.replicate n c ≠ [] := by
  intro h
  have := congrArg List.length h
  rw [List.length_replicate] at this
  simp at this
  omega

theorem trimStr_replicate (c : Char) (n : Nat) (hc : isWs c = false)
    (hn : 2 ≤ n) : trimStr (List.replicate n c) = List.replicate n c := by
  obtain ⟨m, rfl⟩ : ∃ m, n = m + 2 := ⟨n - 2, by omega⟩
  rw [replicate_sandwich]
  exact trimStr_sandwich c c _ hc hc

theorem estimateTokens_replicate (c : Char) (n : Nat) :
    estimateTokens (List.replicate n c) = (n + 3) / 4 := by
  unfold estimateTokens
  rw [List.length_replicate]

theorem trim_c1 : trimStr ('a' :: (List.replicate 3999 '\n' ++ ['b'])) =
    'a' :: (List.replicate 3999 '\n' ++ ['b']) :=
  trimStr_sandwich 'a' 'b' _ rfl rfl

theorem tok_c1 : estimateTokens ('a' :: (List.replicate 3999 '\n' ++ ['b'])) =
    1001 := by
  unfold estimateTokens
  rw [List.length_cons, List.length_append, List.length_replicate]
  norm_num

theorem paras_c1 : splitParas ('a' :: (List.replicate 3999 '\n' ++ ['b'])) =
    [['a'], ['b']] := by
  unfold splitParas
  rw [splitParasAux]
  rw [if_neg (by decide), if_neg (by omega)]
  simp only [List.replicate_zero, List.nil_append]
  rw [splitParasAux_newlines]
  rw [splitParasAux]
  rw [if_neg (by decide), if_pos (by omega)]
  rw [splitParasAux]
  rw [if_neg (by omega)]
  simp

/-! Fuel adequacy: the fuel argument of the chunker is irrelevant at or
above the secsFuel bound, so the sectionsToChunks wrapper computes the
unbounded recursion of the source. -/

theorem secFuel_pos (s : ParsedSection) : 1 ≤ secFuel s := by
  cases s with
  | mk lvl hd c ch =>
      rw [secFuel]
      omega

theorem secsFuel_pos (ss : List ParsedSection) : 1 ≤ secsFuel ss := by
  cases ss with
  | nil => rw [secsFuel]
  | cons s rest =>
      rw [secsFuel]
      omega

theorem fuel_adequate (u : Nat → Str) (d : DocInfo) : ∀ n : Nat,
    (∀ (s : ParsedSection) (path : List Str) (st : ChunkState),
      secFuel s ≤ n →
      processSection u d n s path st =
        processSection u d (secFuel s) s path st) ∧
    (∀ (ss : List ParsedSection) (path : List Str) (st : ChunkState),
      secsFuel ss ≤ n →
      processSections u d n ss path st =
        processSections u d (secsFuel ss) ss path st) := by
  intro n
  induction n using Nat.strong_induction_on with
  | _ n ih =>
      cases n with
      | zero =>
          constructor
          · intro s path st h
            exact absurd (Nat.le_trans (secFuel_pos s) h) (by omega)
          · intro ss path st h
            exact absurd (Nat.le_trans (secsFuel_pos ss) h) (by omega)
      | succ k =>
          constructor
          · intro s path st h
            have hsf : secFuel s = secsFuel s.children + 1 := by
              cases s with
              | mk lvl hd c ch => rw [secFuel]
            have hle : secsFuel s.children ≤ k := by omega
            rw [hsf]
            simp only [processSection]
            rw [(ih k (by omega)).2 s.children _ _ hle]
          · intro ss path st h
            cases ss with
            | nil => rw [processSections_nil, processSections_nil]
            | cons s rest =>
                have hss : secsFuel (s :: rest) =
                    secFuel s + secsFuel rest + 1 := by
                  rw [secsFuel]
                have hles : secFuel s ≤ k := by
                  rw [hss] at h
                  have := secsFuel_pos rest
                  omega
                have hler : secsFuel rest ≤ k := by
                  rw [hss] at h
                  have := secFuel_pos s
                  omega
                rw [hss, processSections_cons, processSections_cons]
                rw [(ih k (by omega)).1 s _ _ hles,
                  (ih k (by omega)).2 rest _ _ hler]
                rw [(ih (secFuel s + secsFuel rest) (by rw [hss] at h; omega)).1
                  s path st (by omega)]
                rw [(ih (secFuel s + secsFuel rest) (by rw [hss] at h; omega)).2
                  rest path (processSection u d (secFuel s) s path st)
                  (by omega)]

theorem sectionsToChunks_fuel_irrelevant (u : Nat → Str)
    (sections : List ParsedSection) (dId dT dU : Str) (pp : List Str)
    (n : Nat) (h : secsFuel sections ≤ n) :
    (processSections u ⟨dId, dT, dU⟩ n sections pp initialState).rev.reverse =
      sectionsToChunks u sections dId dT dU pp := by
  unfold sectionsToChunks
  rw [(fuel_adequate u ⟨dId, dT, dU⟩ n).2 sections pp initialState h]

/-! Claim theorems. -/

/-- C2 (code bug): the extractor is claimed to return a forest in which
every child's level is strictly greater than its parent's and content is
section-local; on the two-element input (header level 2, then a content
element) the code instead nests a synthetic level-0 Introduction child
holding the section's own text under the level-2 section, so the
child-level invariant fails at the root's immediate children. -/
theorem C2_extractor_child_level_bug :
    parseBlocks [BlockElement.header 2 (str "A"),
        BlockElement.contentEl (str "x")] =
      [⟨2, str "A", [], [⟨0, str "Introduction", str "x", []⟩]⟩] ∧
    rootChildLevelsOk (parseBlocks [BlockElement.header 2 (str "A"),
        BlockElement.contentEl (str "x")]) = false := ⟨rfl, rfl⟩

/-- C3 (code bug): the claim says buffered content preceding a header is
flushed into the previous open section and Introduction synthesis
happens only at the top level; on the input (content a, header level 1
named H, content b) the code instead attaches a to the following
section H and synthesizes an Introduction child inside H holding b, with
no top-level Introduction for a. -/
theorem C3_extractor_intro_bug :
    parseBlocks [BlockElement.contentEl (str "a"),
        BlockElement.header 1 (str "H"),
        BlockElement.contentEl (str "b")] =
      [⟨1, str "H", str "a", [⟨0, str "Introduction", str "b", []⟩]⟩] := rfl

/-- C5 (counterexample): the claim that every chunk in the final list
satisfies token_count = estimateTokens(content) fails when a small
section is merged into its predecessor: two four-character sections
merge into one chunk with token_count 2 but content of ten characters,
whose estimate is 3. -/
theorem C5_counterexample :
    ¬ (∀ c ∈ sectionsToChunks (fun _ => [])
          [⟨1, str "A", str "aaaa", []⟩, ⟨1, str "B", str "bbbb", []⟩]
          (str "doc-5") (str "T5") (str "u5"),
        c.token_count = estimateTokens c.content ∧ c.content ≠ []) := by
  decide

/-- C5 (amended): for every chunk pushed whole from a section's own
content (the direct and small-first branches), the emitted content is
non-empty, the emission-time token count equals estimateTokens of the
emitted content, later merges only append to the content (so it stays
non-empty), and the stored token_count never falls below the
emission-time count; chunks produced by splitting or extended by merges
need not satisfy token_count = estimateTokens(content). -/
theorem C5_amended (u : Nat → Str) (sections : List ParsedSection)
    (dId dT dU : Str) (g : GChunk)
    (hg : g ∈ gSectionsToChunks u sections dId dT dU)
    (hb : g.branch = Branch.direct ∨ g.branch = Branch.smallFirst) :
    g.emitContent ≠ [] ∧ g.emitTokens = estimateTokens g.emitContent ∧
    (∃ t, g.content = g.emitContent ++ t) ∧ g.content ≠ [] ∧
    g.emitTokens ≤ g.token_count := by
  have hmem : g ∈ (gProcessSections u ⟨dId, dT, dU⟩ (secsFuel sections)
      sections [] gInitialState).rev := by
    unfold gSectionsToChunks at hg
    exact List.mem_reverse.mp hg
  have hinv := (GSInv_run u sections dId dT dU).inv g hmem
  obtain ⟨h1, h2, h3, hd, hs, hf, hr⟩ := hinv
  obtain ⟨t, ht⟩ := h2
  have hne : g.emitContent ≠ [] ∧ g.emitTokens = estimateTokens g.emitContent := by
    cases hb with
    | inl hbd =>
        obtain ⟨_, _, hc, htok, _⟩ := hd hbd
        exact ⟨hc, htok⟩
    | inr hbs =>
        obtain ⟨_, _, hc, htok, _⟩ := hs hbs
        exact ⟨hc, htok⟩
  refine ⟨hne.1, hne.2, ⟨t, ht⟩, ?_, h1⟩
  intro hcon
  rw [hcon] at ht
  exact hne.1 (List.append_eq_nil.mp ht.symm).1

set_option maxRecDepth 100000 in
/-- C5 (witness): the amended claim instantiated on a single section of
400 characters, emitted by the direct branch. -/
theorem C5_witness :
    ((⟨⟨str "w5", str "dw5", str "tw5", str "uw5", [str "WC"], str "WC",
        List.replicate 400 'z', 100, 0⟩, Branch.direct, 100,
        List.replicate 400 'z', str "WC"⟩ : GChunk) ∈
      gSectionsToChunks (fun _ => str "w5")
        [⟨1, str "WC", List.replicate 400 'z', []⟩]
        (str "dw5") (str "tw5") (str "uw5")) ∧
    ((⟨⟨str "w5", str "dw5", str "tw5", str "uw5", [str "WC"], str "WC",
        List.replicate 400 'z', 100, 0⟩, Branch.direct, 100,
        List.replicate 400 'z', str "WC"⟩ : GChunk).emitContent ≠ [] ∧
      (100 : Nat) = estimateTokens (List.replicate 400 'z') ∧
      (∃ t, List.replicate 400 'z' = List.replicate 400 'z' ++ t) ∧
      List.replicate 400 'z' ≠ ([] : Str) ∧ (100 : Nat) ≤ 100) :=
  ⟨by decide,
    C5_amended (fun _ => str "w5") [⟨1, str "WC", List.replicate 400 'z', []⟩]
      (str "dw5") (str "tw5") (str "uw5") _ (by decide) (Or.inl rfl)⟩

/-- C6: chunk_index values of the chunks returned by sectionsToChunks
form the contiguous sequence 0..N-1 in emission order, where N is the
number of emitted chunks; merges modify the last chunk in place and do
not consume an index. -/
theorem C6_chunk_indices (u : Nat → Str) (sections : List ParsedSection)
    (dId dT dU : Str) :
    (sectionsToChunks u sections dId dT dU).map (fun c => c.chunk_index) =
      List.range (sectionsToChunks u sections dId dT dU).length := by
  have hproj := project_sectionsToChunks u sections dId dT dU []
  rw [← hproj, List.map_map, List.length_map]
  have hGS := GSInv_run u sections dId dT dU
  unfold gSectionsToChunks
  rw [List.map_reverse, List.length_reverse]
  have hcomp : ((fun c => c.chunk_index) ∘ GChunk.toChunk) =
      (fun g : GChunk => g.chunk_index) := rfl
  rw [hcomp, hGS.idx_map, List.reverse_reverse, ← hGS.idx_eq]

/-- C7: generateSummary selects the first chunk whose heading
case-insensitively contains intro, else the first chunk, takes the first
300 characters of its content, truncates inclusive of the last period
when a period exists after character 100, appends an ellipsis otherwise,
and returns the empty string on zero chunks — proved by equivalence with
a definition written from the spec text. -/
theorem C7_generateSummary_matches_spec (chunks : List Chunk) :
    generateSummary chunks = generateSummarySpec chunks := by
  cases chunks with
  | nil => rfl
  | cons c0 rest =>
      simp only [generateSummary, generateSummarySpec]
      rw [find?_eq_head_filter]
      exact truncation_eq _

/-- C9 (counterexample): two runs of sectionsToChunks on the same input
are claimed to be identical field for field including the id field; two
uuid supplies that return different identifiers give different chunk
lists. -/
theorem C9_counterexample :
    ¬ (∀ (u1 u2 : Nat → Str) (sections : List ParsedSection)
        (dId dT dU : Str),
        sectionsToChunks u1 sections dId dT dU =
          sectionsToChunks u2 sections dId dT dU) := by
  intro h
  have h2 := h (fun _ => str "a") (fun _ => str "b")
    [⟨1, str "S", str "hi", []⟩] (str "d9") (str "t9") (str "w9")
  exact absurd h2 (by decide)

/-- C9 (amended): for a fixed section forest and document identity, any
two runs of sectionsToChunks agree on every field except the randomly
generated id, and generateSummary and extractSections of the two runs
agree. -/
theorem C9_amended (u1 u2 : Nat → Str) (sections : List ParsedSection)
    (dId dT dU : Str) (pp : List Str) :
    (sectionsToChunks u1 sections dId dT dU pp).map stripId =
      (sectionsToChunks u2 sections dId dT dU pp).map stripId ∧
    generateSummary (sectionsToChunks u1 sections dId dT dU pp) =
      generateSummary (sectionsToChunks u2 sections dId dT dU pp) ∧
    extractSections (sectionsToChunks u1 sections dId dT dU pp) =
      extractSections (sectionsToChunks u2 sections dId dT dU pp) := by
  have h := SimR_run u1 u2 sections dId dT dU pp
  exact ⟨h, generateSummary_stripId _ _ h, extractSections_stripId _ _ h⟩

/-- C1 (counterexample): a document whose single section has non-empty
content of 4001 characters (mostly a blank-line run) exceeds MAX, splits
into two one-token paragraphs, and ends the loop with a two-token buffer
below MIN with no chunk emitted; the code drops the remainder and the
document yields zero chunks, contradicting the claim that the remainder
is emitted standalone and every document with non-empty section content
yields at least one chunk. -/
theorem C1_counterexample :
    trimStr ('a' :: (List.replicate 3999 '\n' ++ ['b'])) ≠ [] ∧
    sectionsToChunks (fun _ => [])
        [⟨1, str "H", 'a' :: (List.replicate 3999 '\n' ++ ['b']), []⟩]
        (str "doc-1") (str "T1") (str "u1") = [] := by
  constructor
  · rw [trim_c1]
    exact List.cons_ne_nil _ _
  · refine run_oversized_drop (fun _ => []) (str "doc-1") (str "T1")
      (str "u1") ⟨1, str "H", 'a' :: (List.replicate 3999 '\n' ++ ['b']), []⟩
      ['a', '\n', '\n', 'b'] 2 rfl ?_ ?_ ?_ (by decide) (by decide)
    · show trimStr ('a' :: (List.replicate 3999 '\n' ++ ['b'])) ≠ []
      rw [trim_c1]
      exact List.cons_ne_nil _ _
    · show estimateTokens
          (trimStr ('a' :: (List.replicate 3999 '\n' ++ ['b']))) >
        MAX_CHUNK_TOKENS
      rw [trim_c1, tok_c1]
      decide
    · show splitLoop (fun _ => [])
          ⟨str "doc-1", str "T1", str "u1"⟩ (str "H")
          (if str "H" ≠ [] then [str "H"] else [])
          (splitParas (trimStr ('a' :: (List.replicate 3999 '\n' ++ ['b']))))
          [] 0 initialState = (initialState, ['a', '\n', '\n', 'b'], 2)
      rw [trim_c1, paras_c1]
      decide

/-- C1 (amended): when an oversized section's paragraph loop flushes no
chunk and leaves a below-MIN remainder, and no chunk has yet been
emitted for the document, the remainder is dropped rather than emitted
standalone: the document yields zero chunks. -/
theorem C1_amended (u : Nat → Str) (dId dT dU : Str) (s : ParsedSection)
    (buf : Str) (bt : Nat) (hch : s.children = [])
    (h1 : trimStr s.content ≠ [])
    (h2 : estimateTokens (trimStr s.content) > MAX_CHUNK_TOKENS)
    (hsl : splitLoop u ⟨dId, dT, dU⟩ s.heading
        (if s.heading ≠ [] then [s.heading] else [])
        (splitParas (trimStr s.content)) [] 0 initialState =
        (initialState, buf, bt))
    (hbuf : buf ≠ []) (hsmall : bt < MIN_CHUNK_TOKENS) :
    sectionsToChunks u [s] dId dT dU = [] :=
  run_oversized_drop u dId dT dU s buf bt hch h1 h2 hsl hbuf hsmall

/-- C1 (witness): the amended claim instantiated on the concrete
4001-character section. -/
theorem C1_witness :
    estimateTokens (trimStr ('a' :: (List.replicate 3999 '\n' ++ ['b']))) >
      MAX_CHUNK_TOKENS ∧
    (2 : Nat) < MIN_CHUNK_TOKENS ∧
    sectionsToChunks (fun _ => [])
        [⟨1, str "H", 'a' :: (List.replicate 3999 '\n' ++ ['b']), []⟩]
        (str "doc-1w") (str "T1w") (str "u1w") = [] := by
  refine ⟨by rw [trim_c1, tok_c1]; decide, by decide, ?_⟩
  refine C1_amended (fun _ => []) (str "doc-1w") (str "T1w") (str "u1w")
    ⟨1, str "H", 'a' :: (List.replicate 3999 '\n' ++ ['b']), []⟩
    ['a', '\n', '\n', 'b'] 2 rfl ?_ ?_ ?_ (by decide) (by decide)
  · show trimStr ('a' :: (List.replicate 3999 '\n' ++ ['b'])) ≠ []
    rw [trim_c1]
    exact List.cons_ne_nil _ _
  · show estimateTokens
        (trimStr ('a' :: (List.replicate 3999 '\n' ++ ['b']))) >
      MAX_CHUNK_TOKENS
    rw [trim_c1, tok_c1]
    decide
  · show splitLoop (fun _ => [])
        ⟨str "doc-1w", str "T1w", str "u1w"⟩ (str "H")
        (if str "H" ≠ [] then [str "H"] else [])
        (splitParas (trimStr ('a' :: (List.replicate 3999 '\n' ++ ['b']))))
        [] 0 initialState = (initialState, ['a', '\n', '\n', 'b'], 2)
    rw [trim_c1, paras_c1]
    decide

/-- C4 (counterexample): the claim that every chunk's token_count lies in
[MIN, MAX] except a first chunk under MIN or a break-free oversized
chunk over MAX fails: a 1000-token section followed by a 99-token
section produces, through the merge branch, a single chunk with
token_count 1099 over MAX whose content contains a blank-line break. -/
theorem C4_counterexample :
    ¬ (∀ c ∈ sectionsToChunks (fun _ => [])
          [⟨1, str "A", List.replicate 4000 'x', []⟩,
           ⟨1, str "B", List.replicate 396 'y', []⟩]
          (str "doc-4") (str "T4") (str "u4"),
        (MIN_CHUNK_TOKENS ≤ c.token_count ∧
          c.token_count ≤ MAX_CHUNK_TOKENS) ∨
        (c.chunk_index = 0 ∧ c.token_count < MIN_CHUNK_TOKENS) ∨
        (MAX_CHUNK_TOKENS < c.token_count ∧
          hasBlankLine c.content = false)) := by
  have hrun := run_direct_merge (fun _ => []) (str "doc-4") (str "T4")
    (str "u4") (str "A") (str "B") (List.replicate 4000 'x')
    (List.replicate 396 'y') 1000 99 (by decide)
    (trimStr_replicate 'x' 4000 rfl (by norm_num))
    (replicate_ne_nil 'x' 4000 (by norm_num))
    (by rw [estimateTokens_replicate])
    (by decide) (by decide)
    (trimStr_replicate 'y' 396 rfl (by norm_num))
    (replicate_ne_nil 'y' 396 (by norm_num))
    (by rw [estimateTokens_replicate])
    (by decide)
  intro hall
  have hc := hall _ (by rw [hrun]; exact List.mem_singleton_self _)
  simp only [MIN_CHUNK_TOKENS, MAX_CHUNK_TOKENS, hasBlankLine] at hc
  rcases hc with ⟨hl, hr⟩ | ⟨hl, hr⟩ | ⟨hl, hr⟩
  · omega
  · omega
  · have hmid := containsSub_mid (List.replicate 4000 'x') sepNl
      (List.replicate 396 'y')
    rw [hmid] at hr
    cases hr

/-- C4 (amended): every chunk's final token_count is at least its
emission-time token count; a chunk whose final token_count exceeds MAX
was produced by the paragraph-splitting path or was extended past its
emission size by merges; a chunk whose final token_count is under MIN is
either the document's first chunk emitted by the small-first rule or a
buffer flushed during paragraph splitting. -/
theorem C4_amended (u : Nat → Str) (sections : List ParsedSection)
    (dId dT dU : Str) (g : GChunk)
    (hg : g ∈ gSectionsToChunks u sections dId dT dU) :
    g.emitTokens ≤ g.token_count ∧
    (MAX_CHUNK_TOKENS < g.token_count →
      g.branch = Branch.splitFlush ∨ g.branch = Branch.splitRemainder ∨
      g.emitTokens < g.token_count) ∧
    (g.token_count < MIN_CHUNK_TOKENS →
      (g.branch = Branch.smallFirst ∧ g.chunk_index = 0) ∨
      g.branch = Branch.splitFlush) := by
  have hmem : g ∈ (gProcessSections u ⟨dId, dT, dU⟩ (secsFuel sections)
      sections [] gInitialState).rev := by
    unfold gSectionsToChunks at hg
    exact List.mem_reverse.mp hg
  have hinv := (GSInv_run u sections dId dT dU).inv g hmem
  obtain ⟨h1, h2, h3, hd, hs, hf, hr⟩ := hinv
  have hcmp : MIN_CHUNK_TOKENS ≤ MAX_CHUNK_TOKENS := by decide
  refine ⟨h1, ?_, ?_⟩
  · intro hmax
    cases hb : g.branch with
    | direct =>
        obtain ⟨ha, hb2, _⟩ := hd hb
        right; right
        omega
    | smallFirst =>
        obtain ⟨ha, _⟩ := hs hb
        right; right
        omega
    | splitFlush => left; rfl
    | splitRemainder => right; left; rfl
  · intro hmin
    cases hb : g.branch with
    | direct =>
        obtain ⟨ha, _⟩ := hd hb
        omega
    | smallFirst =>
        obtain ⟨_, hidx, _⟩ := hs hb
        left
        exact ⟨rfl, hidx⟩
    | splitFlush => right; rfl
    | splitRemainder =>
        obtain ⟨ha, _⟩ := hr hb
        omega

/-- C4 (witness): the amended claim instantiated on a document whose only
chunk is the small-first chunk of a two-character section. -/
theorem C4_witness :
    ((⟨⟨str "w4", str "dw4", str "tw4", str "uw4", [str "WA"], str "WA",
        str "hi", 1, 0⟩, Branch.smallFirst, 1, str "hi", str "WA"⟩ :
        GChunk) ∈
      gSectionsToChunks (fun _ => str "w4")
        [⟨1, str "WA", str "hi", []⟩]
        (str "dw4") (str "tw4") (str "uw4")) ∧
    ((1 : Nat) ≤ 1 ∧
      (MAX_CHUNK_TOKENS < 1 →
        Branch.smallFirst = Branch.splitFlush ∨
        Branch.smallFirst = Branch.splitRemainder ∨ (1 : Nat) < 1) ∧
      ((1 : Nat) < MIN_CHUNK_TOKENS →
        (Branch.smallFirst = Branch.smallFirst ∧ (0 : Nat) = 0) ∨
        Branch.smallFirst = Branch.splitFlush)) :=
  ⟨by decide,
    C4_amended (fun _ => str "w4") [⟨1, str "WA", str "hi", []⟩]
      (str "dw4") (str "tw4") (str "uw4")
      ⟨⟨str "w4", str "dw4", str "tw4", str "uw4", [str "WA"], str "WA",
        str "hi", 1, 0⟩, Branch.smallFirst, 1, str "hi", str "WA"⟩
      (by decide)⟩

/-- C8 (counterexample): the claim that the heading fallback policy (own
heading, else last non-empty breadcrumb element, else Content) applies
in every emission branch fails in the small-first branch: a document
whose first chunk comes from an empty-headed child below section H gets
heading Introduction although the claimed policy yields H. -/
theorem C8_counterexample :
    ¬ (∀ g ∈ gSectionsToChunks (fun _ => [])
          [⟨1, str "H", [], [⟨2, [], str "tiny", []⟩]⟩]
          (str "doc-8") (str "T8") (str "u8"),
        g.heading = claimedHeadingPolicy g.secHeading g.section_path) := by
  decide

/-- C8 (amended): chunks emitted by the direct and splitting branches
carry the claimed heading fallback (own heading, else last non-empty
breadcrumb element, else Content); the small-first branch instead falls
back to the literal Introduction, ignoring the breadcrumb; breadcrumbs
never contain empty elements. -/
theorem C8_amended (u : Nat → Str) (sections : List ParsedSection)
    (dId dT dU : Str) (g : GChunk)
    (hg : g ∈ gSectionsToChunks u sections dId dT dU) :
    ((g.branch = Branch.direct ∨ g.branch = Branch.splitFlush ∨
        g.branch = Branch.splitRemainder) →
      g.heading = claimedHeadingPolicy g.secHeading g.section_path) ∧
    (g.branch = Branch.smallFirst →
      g.heading =
        (if g.secHeading ≠ [] then g.secHeading else str "Introduction")) ∧
    (∀ h ∈ g.section_path, h ≠ []) := by
  have hmem : g ∈ (gProcessSections u ⟨dId, dT, dU⟩ (secsFuel sections)
      sections [] gInitialState).rev := by
    unfold gSectionsToChunks at hg
    exact List.mem_reverse.mp hg
  have hinv := (GSInv_run u sections dId dT dU).inv g hmem
  obtain ⟨h1, h2, h3, hd, hs, hf, hr⟩ := hinv
  refine ⟨?_, ?_, h3⟩
  · intro hb
    rw [← headingFallback_eq_claimed g.secHeading g.section_path h3]
    rcases hb with hb | hb | hb
    · exact (hd hb).2.2.2.2
    · exact hf hb
    · exact (hr hb).2
  · intro hb
    exact (hs hb).2.2.2.2

set_option maxRecDepth 100000 in
/-- C8 (witness): the amended claim instantiated on a single 400
character section emitted by the direct branch. -/
theorem C8_witness :
    ((⟨⟨str "w8", str "dw8", str "tw8", str "uw8", [str "W8"], str "W8",
        List.replicate 400 'q', 100, 0⟩, Branch.direct, 100,
        List.replicate 400 'q', str "W8"⟩ : GChunk) ∈
      gSectionsToChunks (fun _ => str "w8")
        [⟨1, str "W8", List.replicate 400 'q', []⟩]
        (str "dw8") (str "tw8") (str "uw8")) ∧
    ((Branch.direct = Branch.direct ∨ Branch.direct = Branch.splitFlush ∨
        Branch.direct = Branch.splitRemainder) →
      str "W8" = claimedHeadingPolicy (str "W8") [str "W8"]) ∧
    (Branch.direct = Branch.smallFirst →
      str "W8" =
        (if (str "W8") ≠ [] then str "W8" else str "Introduction")) ∧
    (∀ h ∈ [str "W8"], h ≠ []) :=
  ⟨by decide,
    C8_amended (fun _ => str "w8")
      [⟨1, str "W8", List.replicate 400 'q', []⟩]
      (str "dw8") (str "tw8") (str "uw8")
      ⟨⟨str "w8", str "dw8", str "tw8", str "uw8", [str "W8"], str "W8",
        List.replicate 400 'q', 100, 0⟩, Branch.direct, 100,
        List.replicate 400 'q', str "W8"⟩
      (by decide)⟩

/-- C10: when a non-empty below-MIN section (first conjunct) or a
below-MIN split remainder (second conjunct) is merged into the
immediately preceding chunk, only that chunk's content and token_count
change — its id, doc_id, doc_title, doc_url, section_path, heading and
chunk_index are untouched, the other chunks and the index counter are
unchanged, and the merged section contributes no chunk of its own. -/
theorem C10_merge_frame :
    (∀ (u : Nat → Str) (d : DocInfo) (fuel : Nat) (s : ParsedSection)
       (path : List Str) (st : ChunkState) (c : Chunk) (rest : List Chunk),
       s.children = [] → trimStr s.content ≠ [] →
       ¬ estimateTokens (trimStr s.content) > MAX_CHUNK_TOKENS →
       ¬ estimateTokens (trimStr s.content) ≥ MIN_CHUNK_TOKENS →
       st.rev = c :: rest →
       processSection u d (fuel + 1) s path st =
         ⟨{ c with content := c.content ++ sepNl ++ trimStr s.content,
                   token_count :=
                     c.token_count + estimateTokens (trimStr s.content) } ::
            rest, st.idx⟩) ∧
    (∀ (u : Nat → Str) (d : DocInfo) (fuel : Nat) (s : ParsedSection)
       (path : List Str) (st st1 : ChunkState) (buf : Str) (bt : Nat)
       (c : Chunk) (rest : List Chunk),
       s.children = [] → trimStr s.content ≠ [] →
       estimateTokens (trimStr s.content) > MAX_CHUNK_TOKENS →
       splitLoop u d s.heading
         (if s.heading ≠ [] then path ++ [s.heading] else path)
         (splitParas (trimStr s.content)) [] 0 st = (st1, buf, bt) →
       buf ≠ [] → bt < MIN_CHUNK_TOKENS →
       st1.rev = c :: rest →
       processSection u d (fuel + 1) s path st =
         ⟨{ c with content := c.content ++ sepNl ++ trimStr buf,
                   token_count := c.token_count + bt } :: rest,
          st1.idx⟩) := by
  constructor
  · intro u d fuel s path st c rest hch h1 h2 h3 hrev
    rw [processSection_leaf_mergeSmall u d fuel s path st hch h1 h2 h3
      (by rw [hrev]; simp)]
    exact mergeLast_eq _ _ _ _ _ hrev
  · intro u d fuel s path st st1 buf bt c rest hch h1 h2 hsl hbuf hsmall hrev
    rw [processSection_leaf_split u d fuel s path st hch h1 h2]
    rw [splitEmit, hsl]
    simp only []
    rw [if_neg (by intro hcon; omega)]
    rw [if_pos ⟨hbuf, by rw [hrev]; simp⟩]
    exact mergeLast_eq _ _ _ _ _ hrev

/-- C10 (witness): the small-section merge conjunct instantiated on a
concrete state holding one chunk and a four-character section. -/
theorem C10_witness :
    ((⟨1, str "B", str "mmmm", []⟩ : ParsedSection).children = [] ∧
      trimStr (str "mmmm") ≠ [] ∧
      (⟨[⟨str "i0", str "d0", str "t0", str "u0", [str "A"], str "A",
          str "prev", 90, 0⟩], 1⟩ : ChunkState).rev =
        [⟨str "i0", str "d0", str "t0", str "u0", [str "A"], str "A",
          str "prev", 90, 0⟩]) ∧
    processSection (fun _ => str "w10") ⟨str "d0", str "t0", str "u0"⟩ 1
        ⟨1, str "B", str "mmmm", []⟩ []
        ⟨[⟨str "i0", str "d0", str "t0", str "u0", [str "A"], str "A",
          str "prev", 90, 0⟩], 1⟩ =
      ⟨[⟨str "i0", str "d0", str "t0", str "u0", [str "A"], str "A",
         str "prev" ++ sepNl ++ trimStr (str "mmmm"),
         90 + estimateTokens (trimStr (str "mmmm")), 0⟩], 1⟩ :=
  ⟨⟨rfl, by decide, rfl⟩,
    C10_merge_frame.1 (fun _ => str "w10") ⟨str "d0", str "t0", str "u0"⟩ 0
      ⟨1, str "B", str "mmmm", []⟩ []
      ⟨[⟨str "i0", str "d0", str "t0", str "u0", [str "A"], str "A",
        str "prev", 90, 0⟩], 1⟩
      ⟨str "i0", str "d0", str "t0", str "u0", [str "A"], str "A",
        str "prev", 90, 0⟩ [] rfl (by decide) (by decide) (by decide) rfl⟩

end ApiDocMcp
